import Mathlib

/-!
Verification of the image-classification pipeline of
`example-onnxruntime-web-resnet` (src/lib/model/model.ts and
src/lib/model/image.ts) against its natural-language specification.

The numeric code is embedded with exact arithmetic: pixel normalization
(`processPixels`) works over `ℚ`, and the softmax / ranking pipeline is
generic over a `LinearOrderedField`, taking the exponential as a function
parameter so that the statements can be instantiated at `ℝ` with `Real.exp`
(the model of JavaScript's `Math.exp`).  External collaborators (Jimp decode
and resize, `fetch`, the ONNX runtime session) are modelled as oracles:
function parameters or `Except`-valued outcomes.
-/

namespace ResNetWeb

/-- An RGBA pixel as produced by Jimp's `intToRGBA`: four 8-bit components. -/
structure RGBA where
  r : Nat
  g : Nat
  b : Nat
  a : Nat

/-- A decoded, already-resized bitmap, accessed as
`intToRGBA (image.getPixelColor w h)` — column first, row second. -/
def RawImage : Type := Nat → Nat → RGBA

/-- ImageNet per-channel means, from `image.ts`: `mean = [0.485, 0.456, 0.406]`. -/
def meanParams : List ℚ := [0.485, 0.456, 0.406]

/-- ImageNet per-channel standard deviations, from `image.ts`:
`std = [0.229, 0.224, 0.225]`. -/
def stdParams : List ℚ := [0.229, 0.224, 0.225]

/-- Channel selection from `image.ts` line 35:
`c === 0 ? pixelColor.r : (c === 1 ? pixelColor.g : pixelColor.b)`. -/
def channelValue (c : Nat) (p : RGBA) : Nat :=
  if c = 0 then p.r else if c = 1 then p.g else p.b

/-- The nested per-channel / per-row / per-column array `pixelData` built in
`processPixels` (`image.ts` lines 32-40): for channel `c`, row `h`, column `w`
the entry is `(channelValue / 255.0 - mean[c]) / std[c]`. -/
def pixelData (img : RawImage) : List (List (List ℚ)) :=
  (List.range 3).map (fun c =>
    (List.range 224).map (fun h =>
      (List.range 224).map (fun w =>
        ((channelValue c (img w h) : ℚ) / 255 - meanParams.getD c 0) / stdParams.getD c 0)))

/-- The flat `Float32Array` result of `processPixels` (`image.ts` lines 43-55):
the nested `pixelData` is written into a flat buffer at
`index = c * height * width + h * width + w`, which is exactly the
concatenation of the nested lists in construction order. -/
def processPixels (img : RawImage) : List ℚ :=
  (pixelData img).flatten.flatten

/-- Flattening a list of lists that all have length `m` puts element `j` of
inner list `i` at flat position `i * m + j`. -/
theorem flatten_getElem_uniform {α : Type} (m : Nat) :
    ∀ (ls : List (List α)), (∀ l ∈ ls, l.length = m) →
      ∀ i j, j < m → ls.flatten[i * m + j]? = ls[i]?.bind (fun l => l[j]?) := by
  intro ls
  induction ls with
  | nil => intro _ i j _; simp
  | cons l ls ih =>
    intro hlen i j hj
    have hl : l.length = m := hlen l (by simp)
    cases i with
    | zero =>
      have hjl : (0 : Nat) * m + j < l.length := by omega
      simp only [List.flatten_cons, List.getElem?_append, if_pos hjl]
      simp
    | succ i =>
      have hge : l.length ≤ (i + 1) * m + j := by
        have : m ≤ (i + 1) * m + j := by nlinarith
        omega
      rw [List.flatten_cons, List.getElem?_append_right hge]
      have hidx : (i + 1) * m + j - l.length = i * m + j := by
        have : (i + 1) * m = i * m + m := by ring
        omega
      rw [hidx, ih (fun x hx => hlen x (by simp [hx])) i j hj]
      simp

/-- Flattening a list of lists that all have length `m` yields a list of
length `ls.length * m`. -/
theorem flatten_length_uniform {α : Type} (m : Nat) :
    ∀ (ls : List (List α)), (∀ l ∈ ls, l.length = m) →
      ls.flatten.length = ls.length * m := by
  intro ls
  induction ls with
  | nil => intro _; simp
  | cons l ls ih =>
    intro hlen
    have hl : l.length = m := hlen l (by simp)
    have := ih (fun x hx => hlen x (by simp [hx]))
    simp [List.flatten_cons, hl, this]
    ring

/-- Every channel block of `pixelData` is a 224-row list. -/
theorem pixelData_channel_length (img : RawImage) :
    ∀ ch ∈ pixelData img, ch.length = 224 := by
  intro ch hch
  simp only [pixelData, List.mem_map] at hch
  obtain ⟨c, _, hc⟩ := hch
  simp [← hc]

/-- Every row of the flattened channel blocks of `pixelData` has 224 entries. -/
theorem pixelData_row_length (img : RawImage) :
    ∀ row ∈ (pixelData img).flatten, row.length = 224 := by
  intro row hrow
  simp only [List.mem_flatten] at hrow
  obtain ⟨ch, hch, hrowch⟩ := hrow
  simp only [pixelData, List.mem_map] at hch
  obtain ⟨c, _, hc⟩ := hch
  rw [← hc] at hrowch
  simp only [List.mem_map] at hrowch
  obtain ⟨h, _, hh⟩ := hrowch
  simp [← hh]

/-- C1: for every decodable (decoded and resized) input image, `processPixels`
returns a flat buffer of length exactly 3*224*224 = 150528 in which the entry
at index `c*224*224 + h*224 + w` is `(p/255 - mean[c]) / std[c]`, where `p` is
the 8-bit value of channel `c` (0=R, 1=G, 2=B) of the pixel at column `w`,
row `h`. -/
theorem processPixels_layout (img : RawImage) (c h w : Nat)
    (hc : c < 3) (hh : h < 224) (hw : w < 224) :
    (processPixels img).length = 150528 ∧
    (processPixels img)[c * 224 * 224 + h * 224 + w]? =
      some (((channelValue c (img w h) : ℚ) / 255 - meanParams.getD c 0) / stdParams.getD c 0) := by
  constructor
  · have h1 : ((pixelData img).flatten).length = (pixelData img).length * 224 :=
      flatten_length_uniform 224 _ (pixelData_channel_length img)
    have h2 : (processPixels img).length = ((pixelData img).flatten).length * 224 :=
      flatten_length_uniform 224 _ (pixelData_row_length img)
    have h3 : (pixelData img).length = 3 := by simp [pixelData]
    rw [h2, h1, h3]
  · have hidx : c * 224 * 224 + h * 224 + w = (c * 224 + h) * 224 + w := by ring
    rw [processPixels, hidx,
      flatten_getElem_uniform 224 _ (pixelData_row_length img) _ w hw,
      flatten_getElem_uniform 224 _ (pixelData_channel_length img) c h hh]
    simp [pixelData, List.getElem?_map, List.getElem?_range hc,
      List.getElem?_range hh, List.getElem?_range hw]

/-- A solid red test image: every pixel is RGBA (255, 0, 0, 255). -/
def redImage : RawImage := fun _ _ => ⟨255, 0, 0, 255⟩

/-- Witness for C1: on a solid red image the buffer has length 150528 and its
entry at flat index 0 (channel R, row 0, column 0) is `(255/255 - 0.485)/0.229`. -/
theorem processPixels_layout_witness :
    (processPixels redImage).length = 150528 ∧
    (processPixels redImage)[0]? = some (((255 : ℚ) / 255 - 0.485) / 0.229) := by
  have h := processPixels_layout redImage 0 0 0 (by norm_num) (by norm_num) (by norm_num)
  refine ⟨h.1, ?_⟩
  have h2 := h.2
  norm_num [redImage, channelValue, meanParams, stdParams] at h2 ⊢
  exact h2

/-- C9: the preprocessing transform is a pure function of the in-range pixel
data: two images whose pixels agree at every position read by the transform
(columns and rows below 224) produce bit-for-bit identical output buffers.
In particular two runs on the same decoded bytes yield identical buffers, and
there is no dependence on hidden global state. -/
theorem processPixels_deterministic (img1 img2 : RawImage)
    (hpix : ∀ w h, w < 224 → h < 224 → img1 w h = img2 w h) :
    processPixels img1 = processPixels img2 := by
  have hpd : pixelData img1 = pixelData img2 := by
    refine List.map_congr_left ?_
    intro c _
    refine List.map_congr_left ?_
    intro h hh
    refine List.map_congr_left ?_
    intro w hw
    rw [hpix w h (List.mem_range.mp hw) (List.mem_range.mp hh)]
  rw [processPixels, processPixels, hpd]

/-- A variant of the solid red image whose pixels outside the 224×224 window
differ (they are never read by the transform). -/
def redImagePadded : RawImage :=
  fun w h => if 224 ≤ w ∨ 224 ≤ h then ⟨0, 0, 0, 0⟩ else ⟨255, 0, 0, 255⟩

/-- Witness for C9: the solid red image and its padded variant agree on all
in-range pixels, so their preprocessed buffers are identical. -/
theorem processPixels_deterministic_witness :
    processPixels redImage = processPixels redImagePadded := by
  refine processPixels_deterministic redImage redImagePadded ?_
  intro w h hw hh
  simp only [redImage, redImagePadded]
  rw [if_neg (by omega)]

/-- C10: the preprocessing output is independent of the alpha channel: if two
images agree on the R, G and B components of every pixel but differ
arbitrarily in alpha, the output buffers are identical, because only the
`r`, `g`, `b` components of each pixel are ever read. -/
theorem processPixels_alpha_independent (img1 img2 : RawImage)
    (hpix : ∀ w h, (img1 w h).r = (img2 w h).r ∧ (img1 w h).g = (img2 w h).g ∧
      (img1 w h).b = (img2 w h).b) :
    processPixels img1 = processPixels img2 := by
  have hch : ∀ c w h, channelValue c (img1 w h) = channelValue c (img2 w h) := by
    intro c w h
    obtain ⟨hr, hg, hb⟩ := hpix w h
    simp only [channelValue, hr, hg, hb]
  have hpd : pixelData img1 = pixelData img2 := by
    refine List.map_congr_left ?_
    intro c _
    refine List.map_congr_left ?_
    intro h _
    refine List.map_congr_left ?_
    intro w _
    rw [hch c w h]
  rw [processPixels, processPixels, hpd]

/-- A teal test image with opaque alpha. -/
def tealImage : RawImage := fun _ _ => ⟨10, 200, 150, 255⟩

/-- The same teal image with a position-dependent alpha channel. -/
def tealImageAlpha : RawImage := fun w h => ⟨10, 200, 150, w + h⟩

/-- Witness for C10: the two teal images differ only in alpha and their
preprocessed buffers are identical. -/
theorem processPixels_alpha_independent_witness :
    processPixels tealImage = processPixels tealImageAlpha := by
  refine processPixels_alpha_independent tealImage tealImageAlpha ?_
  intro w h
  simp [tealImage, tealImageAlpha]

/-- The value of `Math.max(...logits)` in `computeSoftmax` (`model.ts` line
184).  For an empty argument list JavaScript returns `-Infinity`; that value
is never observed, because both `map`s over an empty `logits` produce the
empty list, so the empty case here may carry any value (we use 0). -/
def listMax {α : Type} [LinearOrderedField α] : List α → α
  | [] => 0
  | l :: ls => ls.foldl max l

/-- The numerically-stabilized softmax of `model.ts` lines 182-190:
subtract the maximum, exponentiate, sum with `reduce(..., 0)`, divide.
`mathExp` stands for `Math.exp`; at `ℝ` it is instantiated with `Real.exp`. -/
def computeSoftmax {α : Type} [LinearOrderedField α] (mathExp : α → α)
    (logits : List α) : List α :=
  let maxLogit := listMax logits
  let expScores := logits.map (fun logit => mathExp (logit - maxLogit))
  let sumExpScores := expScores.foldl (fun sum expScore => sum + expScore) 0
  expScores.map (fun expScore => expScore / sumExpScores)

/-- A left fold of addition starting from `a` is `a` plus the list sum. -/
theorem foldl_add_eq_sum {α : Type} [AddCommMonoid α] :
    ∀ (l : List α) (a : α), l.foldl (fun s x => s + x) a = a + l.sum := by
  intro l
  induction l with
  | nil => intro a; simp
  | cons x xs ih =>
    intro a
    rw [List.foldl_cons, ih (a + x), List.sum_cons, add_assoc]

/-- Dividing every element by `c` divides the sum by `c`. -/
theorem sum_map_div {α : Type} [DivisionRing α] (l : List α) (c : α) :
    (l.map (fun x => x / c)).sum = l.sum / c := by
  induction l with
  | nil => simp
  | cons x xs ih => simp [ih, add_div]

/-- `computeSoftmax` written without the intermediate `let`s: each
exponentiated score is divided by the sum of all exponentiated scores. -/
theorem computeSoftmax_eq {α : Type} [LinearOrderedField α] (mathExp : α → α)
    (logits : List α) :
    computeSoftmax mathExp logits =
      (logits.map (fun logit => mathExp (logit - listMax logits))).map
        (fun e => e / (logits.map (fun logit => mathExp (logit - listMax logits))).sum) := by
  simp only [computeSoftmax]
  rw [foldl_add_eq_sum, zero_add]

/-- For any positive exponential function and nonempty input, the softmax
output sums to exactly 1 and every element lies in `[0, 1]`. -/
theorem computeSoftmax_spec {α : Type} [LinearOrderedField α] (mathExp : α → α)
    (hpos : ∀ x, 0 < mathExp x) (logits : List α) (hne : logits ≠ []) :
    (computeSoftmax mathExp logits).sum = 1 ∧
    ∀ p ∈ computeSoftmax mathExp logits, 0 ≤ p ∧ p ≤ 1 := by
  rw [computeSoftmax_eq]
  set es := logits.map (fun logit => mathExp (logit - listMax logits)) with hes
  have hesne : es ≠ [] := by
    simpa [hes] using hne
  have hespos : ∀ x ∈ es, 0 < x := by
    intro x hx
    rw [hes, List.mem_map] at hx
    obtain ⟨l, _, hl⟩ := hx
    rw [← hl]
    exact hpos _
  have hspos : 0 < es.sum := List.sum_pos es hespos hesne
  constructor
  · rw [sum_map_div, div_self (ne_of_gt hspos)]
  · intro p hp
    rw [List.mem_map] at hp
    obtain ⟨e, he, hep⟩ := hp
    rw [← hep]
    constructor
    · exact div_nonneg (le_of_lt (hespos e he)) (le_of_lt hspos)
    · rw [div_le_one hspos]
      exact List.single_le_sum (fun x hx => le_of_lt (hespos x hx)) e he

/-- C2 (amended): for every nonempty input score vector, the output of
`computeSoftmax` sums to exactly 1 — hence within a relative tolerance of
1e-5 — and every output element lies in `[0, 1]`.  (For the empty vector the
code returns the empty list, whose sum is 0; see the counterexample.) -/
theorem computeSoftmax_probabilities (logits : List ℝ) (hne : logits ≠ []) :
    (computeSoftmax Real.exp logits).sum = 1 ∧
    |(computeSoftmax Real.exp logits).sum - 1| ≤ 1e-5 ∧
    ∀ p ∈ computeSoftmax Real.exp logits, 0 ≤ p ∧ p ≤ 1 := by
  obtain ⟨hsum, hmem⟩ :=
    computeSoftmax_spec Real.exp (fun x => Real.exp_pos x) logits hne
  refine ⟨hsum, ?_, hmem⟩
  rw [hsum]
  norm_num

/-- Witness for C2: the concrete logits `[1, 2, 3]` are nonempty and their
softmax is a probability distribution. -/
theorem computeSoftmax_probabilities_witness :
    ([(1 : ℝ), 2, 3] ≠ []) ∧
    ((computeSoftmax Real.exp [(1 : ℝ), 2, 3]).sum = 1 ∧
     |(computeSoftmax Real.exp [(1 : ℝ), 2, 3]).sum - 1| ≤ 1e-5 ∧
     ∀ p ∈ computeSoftmax Real.exp [(1 : ℝ), 2, 3], 0 ≤ p ∧ p ≤ 1) :=
  ⟨by simp, computeSoftmax_probabilities [(1 : ℝ), 2, 3] (by simp)⟩

/-- Counterexample to C2 as stated: on the empty score vector the code
returns the empty list, whose sum 0 is not within 1e-5 of 1. -/
theorem computeSoftmax_empty_counterexample :
    computeSoftmax Real.exp ([] : List ℝ) = [] ∧
    ¬ |(computeSoftmax Real.exp ([] : List ℝ)).sum - 1| ≤ 1e-5 := by
  have h : computeSoftmax Real.exp ([] : List ℝ) = [] := rfl
  refine ⟨h, ?_⟩
  rw [h]
  simp only [List.sum_nil, zero_sub, abs_neg, abs_one]
  norm_num

/-- Folding `max` over a uniformly shifted list shifts the result. -/
theorem foldl_max_add {α : Type} [LinearOrderedField α] (c : α) :
    ∀ (xs : List α) (x : α),
      (xs.map (fun s => s + c)).foldl max (x + c) = xs.foldl max x + c := by
  intro xs
  induction xs with
  | nil => intro x; simp
  | cons y ys ih =>
    intro x
    rw [List.map_cons, List.foldl_cons, List.foldl_cons,
      max_add_add_right x y c, ih (max x y)]

/-- Adding a constant to every logit shifts the maximum by that constant. -/
theorem listMax_add {α : Type} [LinearOrderedField α] (c : α) (x : α) (xs : List α) :
    listMax ((x :: xs).map (fun s => s + c)) = listMax (x :: xs) + c := by
  simp only [List.map_cons, listMax]
  exact foldl_max_add c xs x

/-- Softmax is exactly shift-invariant for any exponential function: the
max-subtraction feeds identical differences to `mathExp`. -/
theorem computeSoftmax_shift_aux {α : Type} [LinearOrderedField α]
    (mathExp : α → α) (logits : List α) (c : α) :
    computeSoftmax mathExp (logits.map (fun s => s + c)) =
      computeSoftmax mathExp logits := by
  cases logits with
  | nil => rfl
  | cons x xs =>
    rw [computeSoftmax_eq, computeSoftmax_eq]
    have hes : ((x :: xs).map (fun s => s + c)).map
        (fun logit => mathExp (logit - listMax ((x :: xs).map (fun s => s + c)))) =
        (x :: xs).map (fun logit => mathExp (logit - listMax (x :: xs))) := by
      rw [listMax_add, List.map_map]
      refine List.map_congr_left ?_
      intro a _
      have harg : a + c - (listMax (x :: xs) + c) = a - listMax (x :: xs) := by ring
      simp only [Function.comp]
      rw [harg]
    rw [hes]

/-- C8: softmax is shift-invariant — adding any constant `c` to every score
leaves the `computeSoftmax` output unchanged (here exactly, hence in
particular within floating tolerance): the max-subtraction stabilization does
not change the resulting distribution. -/
theorem computeSoftmax_shift_invariant (logits : List ℝ) (c : ℝ) :
    computeSoftmax Real.exp (logits.map (fun s => s + c)) =
      computeSoftmax Real.exp logits :=
  computeSoftmax_shift_aux Real.exp logits c

/-- A `{score, index}` pair as built in `detectImage` (`model.ts` line 225). -/
structure IndexedScore (α : Type) where
  score : α
  index : Nat

/-- The `ImagePrediction` record of `model.ts` lines 196-200.  The `label`
field models the JavaScript expression `labels[result.index]`, which is
`undefined` (here `none`) when the index is outside the vocabulary. -/
structure ImagePrediction (α : Type) where
  label : Option String
  score : α
  index : Nat

instance {α : Type} [LinearOrderedField α] :
    DecidableRel (fun a b : IndexedScore α => b.score ≤ a.score) :=
  fun a b => inferInstanceAs (Decidable (b.score ≤ a.score))

/-- The score-processing tail of `detectImage` (`model.ts` lines 222-235):
softmax, pair each probability with its index, sort by score descending with
the comparator `(a, b) => b.score - a.score` (JavaScript `Array.prototype.sort`
is stable, modelled by the stable insertion sort with `a` kept before `b`
whenever the comparator is ≤ 0, i.e. `b.score ≤ a.score`), keep the first 10,
and attach the vocabulary labels. -/
def detectImagePost {α : Type} [LinearOrderedField α] (mathExp : α → α)
    (labels : List String) (outputData : List α) : List (ImagePrediction α) :=
  let probabilities := computeSoftmax mathExp outputData
  let indexedScores : List (IndexedScore α) :=
    probabilities.enum.map (fun p => ⟨p.2, p.1⟩)
  let sortedResults :=
    List.insertionSort (fun a b => b.score ≤ a.score) indexedScores
  (sortedResults.take 10).map (fun r => ⟨labels[r.index]?, r.score, r.index⟩)

/-- The strict ranking order produced by a stable descending sort of scores
carrying pairwise-distinct indices: higher score first, ties by lower
original index. -/
def rankLT {α : Type} [LinearOrderedField α] (a b : IndexedScore α) : Prop :=
  b.score < a.score ∨ (a.score = b.score ∧ a.index < b.index)

/-- Inserting an element whose index is smaller than that of every element of
a `rankLT`-ordered list keeps the list `rankLT`-ordered: the insertion point
places the new element before every tied element. -/
theorem pairwise_orderedInsert {α : Type} [LinearOrderedField α]
    (x : IndexedScore α) :
    ∀ (l : List (IndexedScore α)), (∀ y ∈ l, x.index < y.index) →
      l.Pairwise rankLT →
      (List.orderedInsert (fun a b => b.score ≤ a.score) x l).Pairwise rankLT := by
  intro l
  induction l with
  | nil =>
    intro _ _
    simp [List.orderedInsert]
  | cons y ys ih =>
    intro hx hp
    obtain ⟨hy, hys⟩ := List.pairwise_cons.mp hp
    by_cases hxy : y.score ≤ x.score
    · rw [List.orderedInsert, if_pos hxy]
      refine List.pairwise_cons.mpr ⟨?_, hp⟩
      intro z hz
      rcases List.mem_cons.mp hz with hzy | hzys
      · subst hzy
        rcases lt_or_eq_of_le hxy with hlt | heq
        · exact Or.inl hlt
        · exact Or.inr ⟨heq.symm, hx z (List.mem_cons_self z ys)⟩
      · have hyz := hy z hzys
        have hzx : z.score ≤ x.score := by
          rcases hyz with hlt | ⟨heq, _⟩
          · exact le_trans (le_of_lt hlt) hxy
          · exact le_trans (le_of_eq heq.symm) hxy
        rcases lt_or_eq_of_le hzx with hlt | heq
        · exact Or.inl hlt
        · exact Or.inr ⟨heq.symm, hx z (List.mem_cons_of_mem y hzys)⟩
    · rw [List.orderedInsert, if_neg hxy]
      push_neg at hxy
      refine List.pairwise_cons.mpr
        ⟨?_, ih (fun y' hy' => hx y' (List.mem_cons_of_mem y hy')) hys⟩
      intro z hz
      rcases (List.mem_orderedInsert _).mp hz with hzx | hzys
      · subst hzx
        exact Or.inl hxy
      · exact hy z hzys

/-- Stable insertion sort by descending score of a list with strictly
increasing indices is `rankLT`-ordered: descending scores, ties broken by the
original (ascending) index. -/
theorem pairwise_insertionSort_rank {α : Type} [LinearOrderedField α] :
    ∀ (l : List (IndexedScore α)), l.Pairwise (fun a b => a.index < b.index) →
      (List.insertionSort (fun a b => b.score ≤ a.score) l).Pairwise rankLT := by
  intro l
  induction l with
  | nil =>
    intro _
    simp [List.insertionSort]
  | cons x xs ih =>
    intro hp
    obtain ⟨hx, hxs⟩ := List.pairwise_cons.mp hp
    rw [List.insertionSort]
    refine pairwise_orderedInsert x _ ?_ (ih hxs)
    intro y hy
    exact hx y (((List.perm_insertionSort _ xs).mem_iff).mp hy)

/-- Every entry of `List.enumFrom n l` has first component at least `n`. -/
theorem le_fst_of_mem_enumFrom {α : Type} :
    ∀ (l : List α) (n : Nat) (p : Nat × α), p ∈ List.enumFrom n l → n ≤ p.1 := by
  intro l
  induction l with
  | nil => intro n p hp; simp at hp
  | cons x xs ih =>
    intro n p hp
    rcases List.mem_cons.mp hp with hpx | hpxs
    · subst hpx; exact le_refl n
    · exact le_trans (Nat.le_succ n) (ih (n + 1) p hpxs)

/-- The first components of `List.enumFrom n l` are strictly increasing. -/
theorem pairwise_fst_lt_enumFrom {α : Type} :
    ∀ (l : List α) (n : Nat),
      (List.enumFrom n l).Pairwise (fun p q => p.1 < q.1) := by
  intro l
  induction l with
  | nil => intro n; simp
  | cons x xs ih =>
    intro n
    refine List.pairwise_cons.mpr ⟨?_, ih (n + 1)⟩
    intro q hq
    exact lt_of_lt_of_le (Nat.lt_succ_self n) (le_fst_of_mem_enumFrom xs (n + 1) q hq)

/-- C3: the ranked prediction list of `detectImagePost` is sorted by score in
descending order, and when two scores are exactly equal the prediction with
the lower original index appears first. -/
theorem detectImage_ranking (labels : List String) (outputData : List ℝ) :
    (detectImagePost Real.exp labels outputData).Pairwise
      (fun a b => b.score ≤ a.score ∧ (a.score = b.score → a.index < b.index)) := by
  simp only [detectImagePost]
  refine List.pairwise_map.mpr ?_
  refine List.Pairwise.sublist (List.take_sublist 10 _) ?_
  have hidx : ((computeSoftmax Real.exp outputData).enum.map
      (fun p => (⟨p.2, p.1⟩ : IndexedScore ℝ))).Pairwise
      (fun a b => a.index < b.index) := by
    refine List.pairwise_map.mpr ?_
    exact pairwise_fst_lt_enumFrom (computeSoftmax Real.exp outputData) 0
  refine (pairwise_insertionSort_rank _ hidx).imp ?_
  intro a b hab
  show b.score ≤ a.score ∧ (a.score = b.score → a.index < b.index)
  rcases hab with hlt | ⟨heq, hidxlt⟩
  · refine ⟨le_of_lt hlt, ?_⟩
    intro heq
    exact absurd hlt (by rw [heq]; exact lt_irrefl _)
  · exact ⟨le_of_eq heq.symm, fun _ => hidxlt⟩

/-- `computeSoftmax` preserves the length of its input. -/
theorem computeSoftmax_length {α : Type} [LinearOrderedField α]
    (mathExp : α → α) (logits : List α) :
    (computeSoftmax mathExp logits).length = logits.length := by
  rw [computeSoftmax_eq]
  simp

/-- The prediction list of `detectImagePost` always has `min 10 n` entries,
where `n` is the number of input scores: `slice(0, 10)` truncates to the
constant 10 and returns everything when fewer scores exist. -/
theorem detectImagePost_length {α : Type} [LinearOrderedField α]
    (mathExp : α → α) (labels : List String) (outputData : List α) :
    (detectImagePost mathExp labels outputData).length = min 10 outputData.length := by
  simp only [detectImagePost]
  rw [List.length_map, List.length_take, List.length_insertionSort,
    List.length_map, List.enum_length, computeSoftmax_length]

/-- C4 (amended): the truncation bound is not a caller-supplied parameter but
the constant 10 baked into `detectImage` (`sortedResults.slice(0, 10)`): the
prediction list has length `min 10 n` for `n` input scores, so it has exactly
10 entries when at least 10 scores exist and all `n` entries (no error, no
out-of-bounds access) when `n ≤ 10`. -/
theorem detectImage_fixed_topTen (labels : List String) (outputData : List ℝ) :
    (detectImagePost Real.exp labels outputData).length = min 10 outputData.length :=
  detectImagePost_length Real.exp labels outputData

/-- Counterexample to C4 as stated: with 20 scores and a 20-entry vocabulary
the code returns 10 predictions — not the 3 the surrounding comments and UI
document, and not a caller-chosen count. -/
theorem detectImage_fixed_topTen_counterexample :
    (detectImagePost Real.exp (List.replicate 20 "label")
      (List.replicate 20 (0 : ℝ))).length = 10 ∧
    (detectImagePost Real.exp (List.replicate 20 "label")
      (List.replicate 20 (0 : ℝ))).length ≠ 3 ∧
    (detectImagePost Real.exp (List.replicate 20 "label")
      (List.replicate 20 (0 : ℝ))).length ≠ 20 := by
  have h := detectImagePost_length Real.exp (List.replicate 20 "label")
    (List.replicate 20 (0 : ℝ))
  rw [List.length_replicate] at h
  norm_num at h
  refine ⟨h, ?_, ?_⟩
  · rw [h]; norm_num
  · rw [h]; norm_num

/-- C5 (amended): `detectImage` performs no dimension check between scores and
vocabulary: when the lengths differ it still returns a prediction list of
length `min 10 n` (out-of-vocabulary indices merely yield `none` labels),
rather than failing with a `DimensionMismatchError`. -/
theorem detectImage_no_dimension_check (labels : List String)
    (outputData : List ℝ) (_hmismatch : outputData.length ≠ labels.length) :
    (detectImagePost Real.exp labels outputData).length = min 10 outputData.length :=
  detectImagePost_length Real.exp labels outputData

/-- Witness for C5 (amended): two scores against a three-word vocabulary is a
genuine mismatch, and a 2-element prediction list is still produced. -/
theorem detectImage_no_dimension_check_witness :
    (([(1 : ℝ), 2].length ≠ (["a", "b", "c"] : List String).length)) ∧
    (detectImagePost Real.exp ["a", "b", "c"] [(1 : ℝ), 2]).length =
      min 10 [(1 : ℝ), 2].length :=
  ⟨by simp, detectImage_no_dimension_check ["a", "b", "c"] [(1 : ℝ), 2] (by simp)⟩

/-- Counterexample to C5 as stated: scores of length 2 against a vocabulary of
length 3 do not fail — a prediction list of length 2 is silently returned. -/
theorem detectImage_mismatch_counterexample :
    ([(1 : ℝ), 2].length ≠ (["a", "b", "c"] : List String).length) ∧
    (detectImagePost Real.exp ["a", "b", "c"] [(1 : ℝ), 2]).length = 2 := by
  refine ⟨by simp, ?_⟩
  have h := detectImagePost_length Real.exp ["a", "b", "c"] [(1 : ℝ), 2]
  simpa using h

/-- The `ImageDetectionResult` record of `model.ts` lines 205-208. -/
structure ImageDetectionResult (α : Type) where
  predictions : List (ImagePrediction α)
  executionTimeMs : α

/-- The orchestrator `detectImage` (`model.ts` lines 213-252).  The call to
`runResNetModel` — fetch, session creation and the forward pass — is an
external effect, modelled by its outcome `runOutcome`; the wall-clock value
`totalProcessingTimeMs` is likewise an oracle.  The body is a `try`/`catch`
around the whole pipeline: on success it returns the postprocessed result, on
any thrown error it logs and returns `null` (here `none`). -/
def detectImage {α : Type} [LinearOrderedField α] (mathExp : α → α)
    (labels : List String) (runOutcome : Except String (List α))
    (totalProcessingTimeMs : α) : Option (ImageDetectionResult α) :=
  match runOutcome with
  | Except.error _ => none
  | Except.ok outputData =>
      some ⟨detectImagePost mathExp labels outputData, totalProcessingTimeMs⟩

/-- C6 (amended): when any component of the pipeline fails, `detectImage`
never returns a partially-populated `ImageDetectionResult` — it returns
`null` (`none`); but the failure is swallowed into that `null` rather than
propagated as a typed error. -/
theorem detectImage_failure_null (labels : List String) (e : String)
    (t : ℝ) :
    detectImage Real.exp labels (Except.error e) t = none :=
  rfl

/-- Counterexample to C6 as stated: two different component failures produce
the identical result `none`, so the first failure is not propagated as a
typed error — the `catch` block swallows it and returns `null`. -/
theorem detectImage_swallows_counterexample :
    detectImage Real.exp [] (Except.error "EngineInitError") (0 : ℝ) = none ∧
    detectImage Real.exp [] (Except.error "EngineInitError") (0 : ℝ) =
      detectImage Real.exp [] (Except.error "InferenceError") (0 : ℝ) :=
  ⟨rfl, rfl⟩

/-- Model bytes (the `Uint8Array` of the fetched ONNX file). -/
def ModelBytes : Type := List Nat

/-- The process-wide mutable state of `model.ts`: the `cachedModelData`
module variable (line 62), together with two instrumentation counters — how
many fetches were started and how many ONNX sessions were constructed. -/
structure InvokerState where
  cachedModelData : Option ModelBytes
  fetchCount : Nat
  sessionCount : Nat

/-- `getModelData` (`model.ts` lines 64-87) with the `fetch` effect modelled
by its outcome: if the cache is populated its bytes are returned unchanged and
no fetch happens; otherwise a fetch is attempted — on success the bytes are
stored in the cache and returned, on failure the error is rethrown and the
cache stays empty. -/
def getModelData (fetchOutcome : Except String ModelBytes)
    (s : InvokerState) : Except String ModelBytes × InvokerState :=
  match s.cachedModelData with
  | some d => (Except.ok d, s)
  | none =>
      match fetchOutcome with
      | Except.ok d =>
          (Except.ok d,
            { s with cachedModelData := some d, fetchCount := s.fetchCount + 1 })
      | Except.error e =>
          (Except.error e, { s with fetchCount := s.fetchCount + 1 })

/-- `createModelSession` (`model.ts` lines 106-129): obtain the model bytes
through `getModelData`, then build a brand-new ONNX session from them.  The
session itself is external; what the model records is that one more session
was constructed from the returned bytes. -/
def createModelSession (fetchOutcome : Except String ModelBytes)
    (s : InvokerState) : Except String ModelBytes × InvokerState :=
  match getModelData fetchOutcome s with
  | (Except.ok d, s1) =>
      (Except.ok d, { s1 with sessionCount := s1.sessionCount + 1 })
  | (Except.error e, s1) => (Except.error e, s1)

/-- `runResNetModel` (`model.ts` lines 136-174) as far as its state effects
go: each call starts with `createModelSession`, i.e. a fresh session per
inference call; the forward pass itself is external and touches no state. -/
def runResNetModel (fetchOutcome : Except String ModelBytes)
    (s : InvokerState) : Except String ModelBytes × InvokerState :=
  createModelSession fetchOutcome s

/-- A sequence of inference calls, each with its own fetch-outcome oracle,
threaded through the process state. -/
def runCalls : List (Except String ModelBytes) → InvokerState → InvokerState
  | [], s => s
  | f :: fs, s => runCalls fs (runResNetModel f s).2

/-- C7: model bytes are fetched at most once per process lifetime.  Once the
cache is populated with bytes `d`: (1) any later `getModelData` call returns
exactly the cached bytes without touching the fetch counter or the cache;
(2) the first successful fetch is what populated the cache (from the empty
state a successful fetch stores its bytes and counts one fetch); and (3) any
sequence of `n` further inference calls performs zero additional fetches,
leaves the cached bytes unchanged, and constructs exactly `n` fresh sessions
from them. -/
theorem getModelData_cached_once (d : ModelBytes)
    (f : Except String ModelBytes) (fs : List (Except String ModelBytes))
    (s : InvokerState) (hcache : s.cachedModelData = some d) :
    getModelData f s = (Except.ok d, s) ∧
    getModelData (Except.ok d)
        ⟨none, s.fetchCount, s.sessionCount⟩ =
      (Except.ok d, ⟨some d, s.fetchCount + 1, s.sessionCount⟩) ∧
    runCalls fs s = ⟨some d, s.fetchCount, s.sessionCount + fs.length⟩ := by
  refine ⟨?_, rfl, ?_⟩
  · rw [getModelData.eq_def, hcache]
  · induction fs generalizing s with
    | nil =>
      simp only [runCalls, List.length_nil, Nat.add_zero]
      cases s with
      | mk c fc sc =>
        simp only at hcache
        rw [hcache]
    | cons g gs ih =>
      have hstep : (runResNetModel g s).2 =
          { s with sessionCount := s.sessionCount + 1 } := by
        rw [runResNetModel, createModelSession.eq_def, getModelData.eq_def, hcache]
        simp [hcache]
      rw [runCalls, hstep]
      have := ih { s with sessionCount := s.sessionCount + 1 } hcache
      rw [this]
      simp only [List.length_cons]
      congr 1
      omega

/-- Witness for C7: starting from a populated cache holding the bytes `[7]`,
one cached read, the populating fetch itself, and two further inference calls
behave as the theorem states. -/
theorem getModelData_cached_once_witness :
    (⟨some [7], 1, 0⟩ : InvokerState).cachedModelData = some [7] ∧
    (getModelData (Except.error "ModelFetchError") ⟨some [7], 1, 0⟩ =
        (Except.ok [7], ⟨some [7], 1, 0⟩) ∧
      getModelData (Except.ok [7]) ⟨none, 1, 0⟩ =
        (Except.ok [7], ⟨some [7], 2, 0⟩) ∧
      runCalls [Except.error "x", Except.ok [9]] ⟨some [7], 1, 0⟩ =
        ⟨some [7], 1, 2⟩) :=
  ⟨rfl, getModelData_cached_once [7] (Except.error "ModelFetchError")
    [Except.error "x", Except.ok [9]] ⟨some [7], 1, 0⟩ rfl⟩
